import Mathlib

/-!
Shallow embedding of `src/operator/operator.py` (functional-analytic operator
algebra): the `Operator` / `LinearOperator` class hierarchy and its algebraic
combinators (sum, composition, pointwise product, scalar multiplication,
adjoint), together with the checked entry points `apply` / `applyAdjoint`.

Modelling choices:
* Elements (vectors) are `List Int`; scalars are `Int`.  A `Space` is a
  concrete finite-dimensional coordinate space: membership is a length check,
  `empty()` allocates a zero-filled buffer of the right length, and every
  integer scalar is a member of the space's field.
* Python exceptions are modelled by the inductive `Err`; each constructor
  corresponds to one raise site of the source (the source raises builtin
  `TypeError` / `ValueError`; the constructor names follow the raise sites).
* Two semantics are given, both translated line by line from the source:
  - a value semantics (`applyImplVal`, `applyAdjointImplVal`) computing the
    data finally left in `out` from the data of `rhs` and `out`;
  - a heap semantics (`applyImplH`, `applyAdjointImplH`) in which buffers are
    heap cells addressed by `Nat` identities and a fresh-allocation counter
    models Python object creation; in-place mutation (`out += tmp`,
    `out *= scalar`, `tmp = rhs.copy()`) is a store update.  Object identity
    (Python `is`) is identity of cell addresses.
-/

/-- A vector space of the model: the coordinate space of integer vectors of a
fixed finite dimension (the concrete `Space` collaborator of the source). -/
structure Space where
  dim : Nat
deriving DecidableEq

/-- Membership test of the `Space` collaborator (`space.isMember(v)`). -/
def memb (s : Space) (v : List Int) : Bool :=
  v.length == s.dim

/-- Buffer allocation of the `Space` collaborator (`space.empty()`): a fresh
zero-filled buffer of the space's dimension. -/
def emptyElem (s : Space) : List Int :=
  List.replicate s.dim 0

/-- In-place vector addition `out += tmp` of the element collaborator. -/
def ipAdd (u v : List Int) : List Int :=
  List.zipWith (· + ·) u v

/-- In-place pointwise vector multiplication `out *= tmp`. -/
def ipMul (u v : List Int) : List Int :=
  List.zipWith (· * ·) u v

/-- In-place scalar multiplication `v *= s`. -/
def scale (s : Int) (v : List Int) : List Int :=
  v.map (fun t => s * t)

/-- Exceptions raised by the source, one constructor per raise site.
In the Python source `domainError` and `rangeError` are `TypeError`,
`aliasingError` is `ValueError`, `scalarTypeError` is the `TypeError` of
`__mul__`/`__rmul__` on a non-scalar operand, and `adjointUndefined` models
the absence of `applyAdjointImpl` on a non-linear operator. -/
inductive Err where
  | domainError
  | rangeError
  | aliasingError
  | scalarTypeError
  | adjointUndefined
deriving DecidableEq

/-- A concrete (external) non-linear operator: domain, range and the unchecked
forward evaluation primitive `applyImpl`, computing the data written to `out`
from the data of `rhs`. -/
structure Leaf where
  dom : Space
  rng : Space
  f : List Int → List Int

/-- A concrete (external) linear operator: additionally carries the unchecked
adjoint evaluation primitive `applyAdjointImpl`. -/
structure LinLeaf where
  dom : Space
  rng : Space
  f : List Int → List Int
  fadj : List Int → List Int

/-- The operator expression trees of the source: one constructor per concrete
class of `operator.py` plus leaf constructors for the externally supplied
concrete operators (plain, linear, and self-adjoint). -/
inductive Operator where
  | leaf (L : Leaf)
  | sum (op1 op2 : Operator)
  | composition (left right : Operator)
  | pointwiseProduct (op1 op2 : Operator)
  | leftScalarMul (op : Operator) (scalar : Int)
  | rightScalarMul (op : Operator) (scalar : Int)
  | linLeaf (L : LinLeaf)
  | selfAdjointLeaf (L : Leaf)
  | adjoint (op : Operator)
  | linearSum (op1 op2 : Operator)
  | linearComposition (left right : Operator)
  | linearScalarMul (op : Operator) (scalar : Int)

mutual

/-- The `domain` property of each operator class. -/
def Operator.domain : Operator → Space
  | .leaf L => L.dom
  | .sum op1 _ => Operator.domain op1
  | .composition _ right => Operator.domain right
  | .pointwiseProduct op1 _ => Operator.domain op1
  | .leftScalarMul op _ => Operator.domain op
  | .rightScalarMul op _ => Operator.domain op
  | .linLeaf L => L.dom
  | .selfAdjointLeaf L => L.dom
  | .adjoint op => Operator.range op
  | .linearSum op1 _ => Operator.domain op1
  | .linearComposition _ right => Operator.domain right
  | .linearScalarMul op _ => Operator.domain op

/-- The `range` property of each operator class. -/
def Operator.range : Operator → Space
  | .leaf L => L.rng
  | .sum op1 _ => Operator.range op1
  | .composition left _ => Operator.range left
  | .pointwiseProduct op1 _ => Operator.range op1
  | .leftScalarMul op _ => Operator.range op
  | .rightScalarMul op _ => Operator.range op
  | .linLeaf L => L.rng
  | .selfAdjointLeaf L => L.rng
  | .adjoint op => Operator.domain op
  | .linearSum op1 _ => Operator.range op1
  | .linearComposition left _ => Operator.range left
  | .linearScalarMul op _ => Operator.range op

end

/-- Python `isinstance(op, LinearOperator)`: exactly the classes deriving from
`LinearOperator` are linear. -/
def Operator.isLinear : Operator → Bool
  | .linLeaf _ => true
  | .selfAdjointLeaf _ => true
  | .adjoint _ => true
  | .linearSum _ _ => true
  | .linearComposition _ _ => true
  | .linearScalarMul _ _ => true
  | _ => false

/-- The construction-time checks of all `__init__` methods, accumulated over
the tree: `OperatorSum` requires equal ranges and equal domains,
`OperatorComposition` requires `right.range == left.domain`,
`OperatorAdjoint` and the linear combinators require linear operands.
Scalar-field membership checks of the scalar-multiplication constructors hold
for every `Int` scalar in this model (every space's field is the integers). -/
def Operator.wf : Operator → Bool
  | .leaf _ => true
  | .sum op1 op2 =>
      decide (Operator.range op1 = Operator.range op2) &&
      decide (Operator.domain op1 = Operator.domain op2) &&
      Operator.wf op1 && Operator.wf op2
  | .composition left right =>
      decide (Operator.range right = Operator.domain left) &&
      Operator.wf left && Operator.wf right
  | .pointwiseProduct op1 op2 =>
      decide (Operator.range op1 = Operator.range op2) &&
      decide (Operator.domain op1 = Operator.domain op2) &&
      Operator.wf op1 && Operator.wf op2
  | .leftScalarMul op _ => Operator.wf op
  | .rightScalarMul op _ => Operator.wf op
  | .linLeaf _ => true
  | .selfAdjointLeaf _ => true
  | .adjoint op => Operator.isLinear op && Operator.wf op
  | .linearSum op1 op2 =>
      Operator.isLinear op1 && Operator.isLinear op2 &&
      decide (Operator.range op1 = Operator.range op2) &&
      decide (Operator.domain op1 = Operator.domain op2) &&
      Operator.wf op1 && Operator.wf op2
  | .linearComposition left right =>
      Operator.isLinear left && Operator.isLinear right &&
      decide (Operator.range right = Operator.domain left) &&
      Operator.wf left && Operator.wf right
  | .linearScalarMul op _ => Operator.isLinear op && Operator.wf op

/-- The typing contract the source expects of the external concrete operators:
each forward primitive maps domain members to range members, each adjoint
primitive maps range members to domain members, and a self-adjoint operator
lives on a single space. -/
def Typed : Operator → Prop
  | .leaf L => ∀ x, memb L.dom x = true → memb L.rng (L.f x) = true
  | .sum op1 op2 => Typed op1 ∧ Typed op2
  | .composition left right => Typed left ∧ Typed right
  | .pointwiseProduct op1 op2 => Typed op1 ∧ Typed op2
  | .leftScalarMul op _ => Typed op
  | .rightScalarMul op _ => Typed op
  | .linLeaf L =>
      (∀ x, memb L.dom x = true → memb L.rng (L.f x) = true) ∧
      (∀ y, memb L.rng y = true → memb L.dom (L.fadj y) = true)
  | .selfAdjointLeaf L =>
      L.dom = L.rng ∧ (∀ x, memb L.dom x = true → memb L.rng (L.f x) = true)
  | .adjoint op => Typed op
  | .linearSum op1 op2 => Typed op1 ∧ Typed op2
  | .linearComposition left right => Typed left ∧ Typed right
  | .linearScalarMul op _ => Typed op

/-- Homogeneity of the external linear leaves of a linear operator tree: each
concrete linear operator's primitives commute with scalar multiplication.
This is the (unverified) linearity contract of the source, restricted to the
part used by the scalar-multiplication claims.  Non-linear constructors never
occur inside a well-formed linear operator, so the predicate is trivial
there. -/
def HomLeaves : Operator → Prop
  | .linLeaf L =>
      (∀ s x, L.f (scale s x) = scale s (L.f x)) ∧
      (∀ s y, L.fadj (scale s y) = scale s (L.fadj y))
  | .selfAdjointLeaf L => ∀ s x, L.f (scale s x) = scale s (L.f x)
  | .adjoint op => HomLeaves op
  | .linearSum op1 op2 => HomLeaves op1 ∧ HomLeaves op2
  | .linearComposition left right => HomLeaves left ∧ HomLeaves right
  | .linearScalarMul op _ => HomLeaves op
  | _ => True

mutual

/-- Value semantics of the unchecked forward primitives `applyImpl` of every
operator class: given the data of `rhs` and the current data of `out`,
compute the data left in `out`.  The `out` argument only feeds the membership
checks of the checked `applyAdjoint` calls made inside
`LinearOperatorComposition.applyAdjointImpl`; every primitive overwrites
`out` completely, exactly as in the source. -/
def applyImplVal : Operator → List Int → List Int → Except Err (List Int)
  | .leaf L, rhs, _ => .ok (L.f rhs)
  | .sum op1 op2, rhs, out =>
      -- tmp = self.range.empty(); op1 into out; op2 into tmp; out += tmp
      match applyImplVal op1 rhs out with
      | .error e => .error e
      | .ok y1 =>
        match applyImplVal op2 rhs (emptyElem (Operator.range (.sum op1 op2))) with
        | .error e => .error e
        | .ok y2 => .ok (ipAdd y1 y2)
  | .composition left right, rhs, out =>
      -- tmp = self.right.range.empty(); right into tmp; left on tmp into out
      match applyImplVal right rhs (emptyElem (Operator.range right)) with
      | .error e => .error e
      | .ok t => applyImplVal left t out
  | .pointwiseProduct op1 op2, rhs, out =>
      -- tmp = self.op2.range.empty(); op1 into out; op2 into tmp; out *= tmp
      match applyImplVal op1 rhs out with
      | .error e => .error e
      | .ok y1 =>
        match applyImplVal op2 rhs (emptyElem (Operator.range op2)) with
        | .error e => .error e
        | .ok y2 => .ok (ipMul y1 y2)
  | .leftScalarMul op s, rhs, out =>
      -- op into out; out *= scalar
      match applyImplVal op rhs out with
      | .error e => .error e
      | .ok y => .ok (scale s y)
  | .rightScalarMul op s, rhs, out =>
      -- tmp = rhs.copy(); tmp *= scalar; op on tmp into out
      applyImplVal op (scale s rhs) out
  | .linLeaf L, rhs, _ => .ok (L.f rhs)
  | .selfAdjointLeaf L, rhs, _ => .ok (L.f rhs)
  | .adjoint op, rhs, out =>
      -- OperatorAdjoint.applyImpl delegates to op.applyAdjointImpl
      applyAdjointImplVal op rhs out
  | .linearSum op1 op2, rhs, out =>
      -- forward evaluation inherited from OperatorSum
      match applyImplVal op1 rhs out with
      | .error e => .error e
      | .ok y1 =>
        match applyImplVal op2 rhs (emptyElem (Operator.range (.linearSum op1 op2))) with
        | .error e => .error e
        | .ok y2 => .ok (ipAdd y1 y2)
  | .linearComposition left right, rhs, out =>
      -- forward evaluation inherited from OperatorComposition
      match applyImplVal right rhs (emptyElem (Operator.range right)) with
      | .error e => .error e
      | .ok t => applyImplVal left t out
  | .linearScalarMul op s, rhs, out =>
      -- forward evaluation inherited from OperatorLeftScalarMultiplication
      match applyImplVal op rhs out with
      | .error e => .error e
      | .ok y => .ok (scale s y)

/-- Value semantics of the unchecked adjoint primitives `applyAdjointImpl`.
Non-linear operator classes have no such method (`adjointUndefined`).
`LinearOperatorComposition.applyAdjointImpl` calls the checked entry point
`applyAdjoint` of its operands on a freshly allocated temporary; those checked
calls are inlined here with their two membership tests.  Their `rhs is out`
identity test compares a freshly allocated buffer with a pre-existing one and
can never fire; object identity is modelled in the heap semantics below. -/
def applyAdjointImplVal : Operator → List Int → List Int → Except Err (List Int)
  | .leaf _, _, _ => .error .adjointUndefined
  | .sum _ _, _, _ => .error .adjointUndefined
  | .composition _ _, _, _ => .error .adjointUndefined
  | .pointwiseProduct _ _, _, _ => .error .adjointUndefined
  | .leftScalarMul _ _, _, _ => .error .adjointUndefined
  | .rightScalarMul _ _, _, _ => .error .adjointUndefined
  | .linLeaf L, rhs, _ => .ok (L.fadj rhs)
  | .selfAdjointLeaf L, rhs, _ =>
      -- SelfAdjointOperator.applyAdjointImpl delegates to self.applyImpl
      .ok (L.f rhs)
  | .adjoint op, rhs, out =>
      -- OperatorAdjoint.applyAdjointImpl delegates to op.applyImpl
      applyImplVal op rhs out
  | .linearSum op1 op2, rhs, out =>
      -- tmp = self.domain.empty(); op1 adjoint into out; op2 adjoint into tmp; out += tmp
      match applyAdjointImplVal op1 rhs out with
      | .error e => .error e
      | .ok y1 =>
        match applyAdjointImplVal op2 rhs (emptyElem (Operator.domain (.linearSum op1 op2))) with
        | .error e => .error e
        | .ok y2 => .ok (ipAdd y1 y2)
  | .linearComposition left right, rhs, out =>
      -- tmp = self.left.domain.empty()
      -- self.left.applyAdjoint(rhs, tmp)   (checked call, inlined)
      if !(memb (Operator.range left) rhs) then .error .domainError
      else if !(memb (Operator.domain left) (emptyElem (Operator.domain left))) then
        .error .rangeError
      else
        match applyAdjointImplVal left rhs (emptyElem (Operator.domain left)) with
        | .error e => .error e
        | .ok t =>
          -- self.right.applyAdjoint(tmp, out)   (checked call, inlined)
          if !(memb (Operator.range right) t) then .error .domainError
          else if !(memb (Operator.domain right) out) then .error .rangeError
          else applyAdjointImplVal right t out
  | .linearScalarMul op s, rhs, out =>
      -- op adjoint into out; out *= scalar
      match applyAdjointImplVal op rhs out with
      | .error e => .error e
      | .ok y => .ok (scale s y)

end

/-- The heap of the buffer model: each Python buffer object is a cell
addressed by a `Nat` identity holding its current data. -/
def Heap : Type := Nat → List Int

/-- Store update: write data `v` into the cell addressed by `i`. -/
def hset (h : Heap) (i : Nat) (v : List Int) : Heap :=
  fun j => if j = i then v else h j

mutual

/-- Heap semantics of the unchecked forward primitives `applyImpl`: both
buffer arguments are cell addresses, and a fresh-allocation counter `σ`
models Python object creation (every cell address below `σ` is in use, each
allocation takes the next address).  In-place mutations of the source are
store updates; the result is the final heap and counter. -/
def applyImplH : Operator → Nat → Nat → Heap → Nat → Except Err (Heap × Nat)
  | .leaf L, rhs, out, h, σ => .ok (hset h out (L.f (h rhs)), σ)
  | .sum op1 op2, rhs, out, h, σ =>
      -- tmp = self.range.empty()
      let h0 := hset h σ (emptyElem (Operator.range (.sum op1 op2)))
      -- self.op1.applyImpl(rhs, out)
      match applyImplH op1 rhs out h0 (σ + 1) with
      | .error e => .error e
      | .ok (h1, σ1) =>
        -- self.op2.applyImpl(rhs, tmp)
        match applyImplH op2 rhs σ h1 σ1 with
        | .error e => .error e
        | .ok (h2, σ2) =>
          -- out += tmp
          .ok (hset h2 out (ipAdd (h2 out) (h2 σ)), σ2)
  | .composition left right, rhs, out, h, σ =>
      -- tmp = self.right.range.empty()
      let h0 := hset h σ (emptyElem (Operator.range right))
      -- self.right.applyImpl(rhs, tmp)
      match applyImplH right rhs σ h0 (σ + 1) with
      | .error e => .error e
      | .ok (h1, σ1) =>
        -- self.left.applyImpl(tmp, out)
        applyImplH left σ out h1 σ1
  | .pointwiseProduct op1 op2, rhs, out, h, σ =>
      -- tmp = self.op2.range.empty()
      let h0 := hset h σ (emptyElem (Operator.range op2))
      match applyImplH op1 rhs out h0 (σ + 1) with
      | .error e => .error e
      | .ok (h1, σ1) =>
        match applyImplH op2 rhs σ h1 σ1 with
        | .error e => .error e
        | .ok (h2, σ2) =>
          -- out *= tmp
          .ok (hset h2 out (ipMul (h2 out) (h2 σ)), σ2)
  | .leftScalarMul op s, rhs, out, h, σ =>
      match applyImplH op rhs out h σ with
      | .error e => .error e
      | .ok (h1, σ1) =>
        -- out *= self.scalar
        .ok (hset h1 out (scale s (h1 out)), σ1)
  | .rightScalarMul op s, rhs, out, h, σ =>
      -- tmp = rhs.copy()
      let h0 := hset h σ (h rhs)
      -- tmp *= self.scalar
      let h1 := hset h0 σ (scale s (h0 σ))
      -- self.op.applyImpl(tmp, out)
      applyImplH op σ out h1 (σ + 1)
  | .linLeaf L, rhs, out, h, σ => .ok (hset h out (L.f (h rhs)), σ)
  | .selfAdjointLeaf L, rhs, out, h, σ => .ok (hset h out (L.f (h rhs)), σ)
  | .adjoint op, rhs, out, h, σ => applyAdjointImplH op rhs out h σ
  | .linearSum op1 op2, rhs, out, h, σ =>
      -- forward evaluation inherited from OperatorSum
      let h0 := hset h σ (emptyElem (Operator.range (.linearSum op1 op2)))
      match applyImplH op1 rhs out h0 (σ + 1) with
      | .error e => .error e
      | .ok (h1, σ1) =>
        match applyImplH op2 rhs σ h1 σ1 with
        | .error e => .error e
        | .ok (h2, σ2) => .ok (hset h2 out (ipAdd (h2 out) (h2 σ)), σ2)
  | .linearComposition left right, rhs, out, h, σ =>
      -- forward evaluation inherited from OperatorComposition
      let h0 := hset h σ (emptyElem (Operator.range right))
      match applyImplH right rhs σ h0 (σ + 1) with
      | .error e => .error e
      | .ok (h1, σ1) => applyImplH left σ out h1 σ1
  | .linearScalarMul op s, rhs, out, h, σ =>
      -- forward evaluation inherited from OperatorLeftScalarMultiplication
      match applyImplH op rhs out h σ with
      | .error e => .error e
      | .ok (h1, σ1) => .ok (hset h1 out (scale s (h1 out)), σ1)

/-- Heap semantics of the unchecked adjoint primitives `applyAdjointImpl`.
The checked `applyAdjoint` calls of `LinearOperatorComposition` are inlined,
including their `rhs is out` object-identity tests (address equality). -/
def applyAdjointImplH : Operator → Nat → Nat → Heap → Nat → Except Err (Heap × Nat)
  | .leaf _, _, _, _, _ => .error .adjointUndefined
  | .sum _ _, _, _, _, _ => .error .adjointUndefined
  | .composition _ _, _, _, _, _ => .error .adjointUndefined
  | .pointwiseProduct _ _, _, _, _, _ => .error .adjointUndefined
  | .leftScalarMul _ _, _, _, _, _ => .error .adjointUndefined
  | .rightScalarMul _ _, _, _, _, _ => .error .adjointUndefined
  | .linLeaf L, rhs, out, h, σ => .ok (hset h out (L.fadj (h rhs)), σ)
  | .selfAdjointLeaf L, rhs, out, h, σ =>
      -- SelfAdjointOperator.applyAdjointImpl delegates to self.applyImpl
      .ok (hset h out (L.f (h rhs)), σ)
  | .adjoint op, rhs, out, h, σ => applyImplH op rhs out h σ
  | .linearSum op1 op2, rhs, out, h, σ =>
      -- tmp = self.domain.empty()
      let h0 := hset h σ (emptyElem (Operator.domain (.linearSum op1 op2)))
      -- self.op1.applyAdjointImpl(rhs, out)
      match applyAdjointImplH op1 rhs out h0 (σ + 1) with
      | .error e => .error e
      | .ok (h1, σ1) =>
        -- self.op2.applyAdjointImpl(rhs, tmp)
        match applyAdjointImplH op2 rhs σ h1 σ1 with
        | .error e => .error e
        | .ok (h2, σ2) =>
          -- out += tmp
          .ok (hset h2 out (ipAdd (h2 out) (h2 σ)), σ2)
  | .linearComposition left right, rhs, out, h, σ =>
      -- tmp = self.left.domain.empty()
      let h0 := hset h σ (emptyElem (Operator.domain left))
      -- self.left.applyAdjoint(rhs, tmp)   (checked call, inlined)
      if !(memb (Operator.range left) (h0 rhs)) then .error .domainError
      else if !(memb (Operator.domain left) (h0 σ)) then .error .rangeError
      else if rhs == σ then .error .aliasingError
      else
        match applyAdjointImplH left rhs σ h0 (σ + 1) with
        | .error e => .error e
        | .ok (h1, σ1) =>
          -- self.right.applyAdjoint(tmp, out)   (checked call, inlined)
          if !(memb (Operator.range right) (h1 σ)) then .error .domainError
          else if !(memb (Operator.domain right) (h1 out)) then .error .rangeError
          else if σ == out then .error .aliasingError
          else applyAdjointImplH right σ out h1 σ1
  | .linearScalarMul op s, rhs, out, h, σ =>
      -- self.op.applyAdjointImpl(rhs, out); out *= self.scalar
      match applyAdjointImplH op rhs out h σ with
      | .error e => .error e
      | .ok (h1, σ1) => .ok (hset h1 out (scale s (h1 out)), σ1)

end

/-- The checked public entry point `Operator.apply(rhs, out)`: domain
membership of `rhs`, range membership of `out`, the `rhs is out` aliasing
test, then delegation to the unchecked primitive — in that order. -/
def Operator.apply (op : Operator) (rhs out : Nat) (h : Heap) (σ : Nat) :
    Except Err (Heap × Nat) :=
  if !(memb (Operator.domain op) (h rhs)) then .error .domainError
  else if !(memb (Operator.range op) (h out)) then .error .rangeError
  else if rhs == out then .error .aliasingError
  else applyImplH op rhs out h σ

/-- The checked public entry point `LinearOperator.applyAdjoint(rhs, out)`:
the method exists only on linear operators; it checks membership of `rhs` in
`range`, of `out` in `domain`, then the `rhs is out` aliasing test, then
delegates to the unchecked adjoint primitive. -/
def Operator.applyAdjoint (op : Operator) (rhs out : Nat) (h : Heap) (σ : Nat) :
    Except Err (Heap × Nat) :=
  if !(Operator.isLinear op) then .error .adjointUndefined
  else if !(memb (Operator.range op) (h rhs)) then .error .domainError
  else if !(memb (Operator.domain op) (h out)) then .error .rangeError
  else if rhs == out then .error .aliasingError
  else applyAdjointImplH op rhs out h σ

/-- The second operand of a Python `*` expression involving an operator:
either a scalar (`numbers.Number`) or another operator. -/
inductive Operand where
  | scalar (s : Int)
  | oper (A : Operator)

/-- Python method `__mul__` as resolved on an operator instance:
`LinearOperator.__mul__` builds `LinearOperatorScalarMultiplication` for a
scalar operand, `Operator.__mul__` builds `OperatorLeftScalarMultiplication`;
both raise `TypeError` on a non-scalar operand. -/
def Operator.mulDispatch (self : Operator) (other : Operand) : Except Err Operator :=
  if Operator.isLinear self then
    match other with
    | .scalar s => .ok (.linearScalarMul self s)
    | .oper _ => .error .scalarTypeError
  else
    match other with
    | .scalar s => .ok (.leftScalarMul self s)
    | .oper _ => .error .scalarTypeError

/-- Python method `__rmul__` as resolved on an operator instance:
`LinearOperator` binds `__rmul__ = __mul__`; `Operator.__rmul__` builds
`OperatorRightScalarMultiplication` for a scalar operand and raises
`TypeError` otherwise. -/
def Operator.rmulDispatch (self : Operator) (other : Operand) : Except Err Operator :=
  if Operator.isLinear self then Operator.mulDispatch self other
  else
    match other with
    | .scalar s => .ok (.rightScalarMul self s)
    | .oper _ => .error .scalarTypeError

/-- Python evaluation of the expression `a * A` with a scalar on the left:
`a.__mul__(A)` returns `NotImplemented` for an operator argument, so Python
falls back to `A.__rmul__(a)`. -/
def scalarTimesOp (a : Int) (A : Operator) : Except Err Operator :=
  Operator.rmulDispatch A (.scalar a)

/-- Python evaluation of the expression `A * a` with a scalar on the right:
this is `A.__mul__(a)`. -/
def opTimesScalar (A : Operator) (a : Int) : Except Err Operator :=
  Operator.mulDispatch A (.scalar a)

/-- A one-dimensional model space. -/
def space1 : Space := ⟨1⟩

/-- A concrete non-linear external operator: pointwise squaring on `space1`. -/
def sqOp : Operator :=
  .leaf ⟨space1, space1, fun v => v.map (fun t => t * t)⟩

/-- A concrete linear external operator: pointwise doubling on `space1`
(self-adjoint as a matrix, supplied with an explicit adjoint primitive). -/
def dblOp : Operator :=
  .linLeaf ⟨space1, space1, (fun v => v.map (fun t => 2 * t)),
    (fun v => v.map (fun t => 2 * t))⟩

/-- A concrete linear external operator: pointwise tripling on `space1`. -/
def trpOp : Operator :=
  .linLeaf ⟨space1, space1, (fun v => v.map (fun t => 3 * t)),
    (fun v => v.map (fun t => 3 * t))⟩

/-- The leaf data of a concrete self-adjoint external operator: pointwise
doubling on `space1`, supplied with a forward primitive only. -/
def sadLeaf : Leaf :=
  ⟨space1, space1, fun v => v.map (fun t => 2 * t)⟩

/-- A concrete self-adjoint external operator: pointwise doubling on `space1`
implemented as a `SelfAdjointOperator` subclass (forward primitive only). -/
def sadOp : Operator :=
  .selfAdjointLeaf sadLeaf

/-- An example heap: cell 0 holds `[3]`, cell 1 holds `[0]`, higher cells are
unallocated. -/
def exHeap : Heap :=
  fun j => if j = 0 then [3] else if j = 1 then [0] else []

/-- An example heap holding two distinct buffers with equal data: cells 0 and
1 both hold `[3]`. -/
def eqHeap : Heap :=
  fun j => if j = 0 then [3] else if j = 1 then [3] else []

theorem hset_self (h : Heap) (i : Nat) (v : List Int) : hset h i v i = v := by
  simp [hset]

theorem hset_ne (h : Heap) (i j : Nat) (v : List Int) (hj : j ≠ i) :
    hset h i v j = h j := by
  simp [hset, hj]

theorem memb_emptyElem (s : Space) : memb s (emptyElem s) = true := by
  simp [memb, emptyElem]

theorem length_scale (a : Int) (v : List Int) : (scale a v).length = v.length := by
  simp [scale]

theorem memb_scale (s : Space) (a : Int) (v : List Int) :
    memb s (scale a v) = memb s v := by
  simp [memb, scale]

theorem memb_ipAdd (s : Space) (u v : List Int) (hu : memb s u = true)
    (hv : memb s v = true) : memb s (ipAdd u v) = true := by
  simp only [memb, beq_iff_eq] at *
  simp [ipAdd, hu, hv]

theorem memb_ipMul (s : Space) (u v : List Int) (hu : memb s u = true)
    (hv : memb s v = true) : memb s (ipMul u v) = true := by
  simp only [memb, beq_iff_eq] at *
  simp [ipMul, hu, hv]

theorem scale_scale (s a : Int) (v : List Int) :
    scale s (scale a v) = scale a (scale s v) := by
  simp only [scale, List.map_map]
  congr 1
  funext t
  simp [Function.comp]
  ring

theorem scale_ipAdd (s : Int) (u v : List Int) :
    scale s (ipAdd u v) = ipAdd (scale s u) (scale s v) := by
  induction u generalizing v with
  | nil => simp [scale, ipAdd]
  | cons a u ih =>
    cases v with
    | nil => simp [scale, ipAdd]
    | cons b v => simp [scale, ipAdd, mul_add] at *; exact ih v

/-- Frame property of the unchecked primitives: a successful run only advances the allocation counter and only writes to the output cell and to freshly allocated temporaries; every other pre-existing cell is untouched. -/
theorem frame_both (op : Operator) :
    (∀ rhs out h σ h' σ', applyImplH op rhs out h σ = .ok (h', σ') →
      σ ≤ σ' ∧ ∀ j, j < σ → j ≠ out → h' j = h j) ∧
    (∀ rhs out h σ h' σ', applyAdjointImplH op rhs out h σ = .ok (h', σ') →
      σ ≤ σ' ∧ ∀ j, j < σ → j ≠ out → h' j = h j) := by
  induction op with
  | leaf L =>
    constructor
    · intro rhs out h σ h' σ' hev
      simp only [applyImplH, Except.ok.injEq, Prod.mk.injEq] at hev
      obtain ⟨hh, hσ⟩ := hev
      subst hh; subst hσ
      exact ⟨le_refl _, fun j _ hj => hset_ne h out j _ hj⟩
    · intro rhs out h σ h' σ' hev
      simp [applyAdjointImplH] at hev
  | sum op1 op2 ih1 ih2 =>
    constructor
    · intro rhs out h σ h' σ' hev
      simp only [applyImplH] at hev
      split at hev
      · exact absurd hev (by simp)
      · rename_i h1 σ1 heq1
        split at hev
        · exact absurd hev (by simp)
        · rename_i h2 σ2 heq2
          simp only [Except.ok.injEq, Prod.mk.injEq] at hev
          obtain ⟨hh, hσ⟩ := hev
          subst hh; subst hσ
          obtain ⟨hle1, hfr1⟩ := ih1.1 _ _ _ _ _ _ heq1
          obtain ⟨hle2, hfr2⟩ := ih2.1 _ _ _ _ _ _ heq2
          refine ⟨by omega, fun j hj hjo => ?_⟩
          rw [hset_ne _ _ _ _ hjo, hfr2 j (by omega) (by omega),
            hfr1 j (by omega) hjo, hset_ne _ _ _ _ (by omega)]
    · intro rhs out h σ h' σ' hev
      simp [applyAdjointImplH] at hev
  | composition left right ihl ihr =>
    constructor
    · intro rhs out h σ h' σ' hev
      simp only [applyImplH] at hev
      split at hev
      · exact absurd hev (by simp)
      · rename_i h1 σ1 heq1
        obtain ⟨hle1, hfr1⟩ := ihr.1 _ _ _ _ _ _ heq1
        obtain ⟨hle2, hfr2⟩ := ihl.1 _ _ _ _ _ _ hev
        refine ⟨by omega, fun j hj hjo => ?_⟩
        rw [hfr2 j (by omega) hjo, hfr1 j (by omega) (by omega),
          hset_ne _ _ _ _ (by omega)]
    · intro rhs out h σ h' σ' hev
      simp [applyAdjointImplH] at hev
  | pointwiseProduct op1 op2 ih1 ih2 =>
    constructor
    · intro rhs out h σ h' σ' hev
      simp only [applyImplH] at hev
      split at hev
      · exact absurd hev (by simp)
      · rename_i h1 σ1 heq1
        split at hev
        · exact absurd hev (by simp)
        · rename_i h2 σ2 heq2
          simp only [Except.ok.injEq, Prod.mk.injEq] at hev
          obtain ⟨hh, hσ⟩ := hev
          subst hh; subst hσ
          obtain ⟨hle1, hfr1⟩ := ih1.1 _ _ _ _ _ _ heq1
          obtain ⟨hle2, hfr2⟩ := ih2.1 _ _ _ _ _ _ heq2
          refine ⟨by omega, fun j hj hjo => ?_⟩
          rw [hset_ne _ _ _ _ hjo, hfr2 j (by omega) (by omega),
            hfr1 j (by omega) hjo, hset_ne _ _ _ _ (by omega)]
    · intro rhs out h σ h' σ' hev
      simp [applyAdjointImplH] at hev
  | leftScalarMul op s ih =>
    constructor
    · intro rhs out h σ h' σ' hev
      simp only [applyImplH] at hev
      split at hev
      · exact absurd hev (by simp)
      · rename_i h1 σ1 heq1
        simp only [Except.ok.injEq, Prod.mk.injEq] at hev
        obtain ⟨hh, hσ⟩ := hev
        subst hh; subst hσ
        obtain ⟨hle1, hfr1⟩ := ih.1 _ _ _ _ _ _ heq1
        refine ⟨by omega, fun j hj hjo => ?_⟩
        rw [hset_ne _ _ _ _ hjo, hfr1 j (by omega) hjo]
    · intro rhs out h σ h' σ' hev
      simp [applyAdjointImplH] at hev
  | rightScalarMul op s ih =>
    constructor
    · intro rhs out h σ h' σ' hev
      simp only [applyImplH] at hev
      obtain ⟨hle1, hfr1⟩ := ih.1 _ _ _ _ _ _ hev
      refine ⟨by omega, fun j hj hjo => ?_⟩
      rw [hfr1 j (by omega) hjo, hset_ne _ _ _ _ (by omega),
        hset_ne _ _ _ _ (by omega)]
    · intro rhs out h σ h' σ' hev
      simp [applyAdjointImplH] at hev
  | linLeaf L =>
    constructor
    · intro rhs out h σ h' σ' hev
      simp only [applyImplH, Except.ok.injEq, Prod.mk.injEq] at hev
      obtain ⟨hh, hσ⟩ := hev
      subst hh; subst hσ
      exact ⟨le_refl _, fun j _ hj => hset_ne h out j _ hj⟩
    · intro rhs out h σ h' σ' hev
      simp only [applyAdjointImplH, Except.ok.injEq, Prod.mk.injEq] at hev
      obtain ⟨hh, hσ⟩ := hev
      subst hh; subst hσ
      exact ⟨le_refl _, fun j _ hj => hset_ne h out j _ hj⟩
  | selfAdjointLeaf L =>
    constructor
    · intro rhs out h σ h' σ' hev
      simp only [applyImplH, Except.ok.injEq, Prod.mk.injEq] at hev
      obtain ⟨hh, hσ⟩ := hev
      subst hh; subst hσ
      exact ⟨le_refl _, fun j _ hj => hset_ne h out j _ hj⟩
    · intro rhs out h σ h' σ' hev
      simp only [applyAdjointImplH, Except.ok.injEq, Prod.mk.injEq] at hev
      obtain ⟨hh, hσ⟩ := hev
      subst hh; subst hσ
      exact ⟨le_refl _, fun j _ hj => hset_ne h out j _ hj⟩
  | adjoint op ih =>
    constructor
    · intro rhs out h σ h' σ' hev
      simp only [applyImplH] at hev
      exact ih.2 _ _ _ _ _ _ hev
    · intro rhs out h σ h' σ' hev
      simp only [applyAdjointImplH] at hev
      exact ih.1 _ _ _ _ _ _ hev
  | linearSum op1 op2 ih1 ih2 =>
    constructor
    · intro rhs out h σ h' σ' hev
      simp only [applyImplH] at hev
      split at hev
      · exact absurd hev (by simp)
      · rename_i h1 σ1 heq1
        split at hev
        · exact absurd hev (by simp)
        · rename_i h2 σ2 heq2
          simp only [Except.ok.injEq, Prod.mk.injEq] at hev
          obtain ⟨hh, hσ⟩ := hev
          subst hh; subst hσ
          obtain ⟨hle1, hfr1⟩ := ih1.1 _ _ _ _ _ _ heq1
          obtain ⟨hle2, hfr2⟩ := ih2.1 _ _ _ _ _ _ heq2
          refine ⟨by omega, fun j hj hjo => ?_⟩
          rw [hset_ne _ _ _ _ hjo, hfr2 j (by omega) (by omega),
            hfr1 j (by omega) hjo, hset_ne _ _ _ _ (by omega)]
    · intro rhs out h σ h' σ' hev
      simp only [applyAdjointImplH] at hev
      split at hev
      · exact absurd hev (by simp)
      · rename_i h1 σ1 heq1
        split at hev
        · exact absurd hev (by simp)
        · rename_i h2 σ2 heq2
          simp only [Except.ok.injEq, Prod.mk.injEq] at hev
          obtain ⟨hh, hσ⟩ := hev
          subst hh; subst hσ
          obtain ⟨hle1, hfr1⟩ := ih1.2 _ _ _ _ _ _ heq1
          obtain ⟨hle2, hfr2⟩ := ih2.2 _ _ _ _ _ _ heq2
          refine ⟨by omega, fun j hj hjo => ?_⟩
          rw [hset_ne _ _ _ _ hjo, hfr2 j (by omega) (by omega),
            hfr1 j (by omega) hjo, hset_ne _ _ _ _ (by omega)]
  | linearComposition left right ihl ihr =>
    constructor
    · intro rhs out h σ h' σ' hev
      simp only [applyImplH] at hev
      split at hev
      · exact absurd hev (by simp)
      · rename_i h1 σ1 heq1
        obtain ⟨hle1, hfr1⟩ := ihr.1 _ _ _ _ _ _ heq1
        obtain ⟨hle2, hfr2⟩ := ihl.1 _ _ _ _ _ _ hev
        refine ⟨by omega, fun j hj hjo => ?_⟩
        rw [hfr2 j (by omega) hjo, hfr1 j (by omega) (by omega),
          hset_ne _ _ _ _ (by omega)]
    · intro rhs out h σ h' σ' hev
      simp only [applyAdjointImplH] at hev
      split at hev
      · exact absurd hev (by simp)
      · split at hev
        · exact absurd hev (by simp)
        · split at hev
          · exact absurd hev (by simp)
          · split at hev
            · exact absurd hev (by simp)
            · rename_i h1 σ1 heq1
              split at hev
              · exact absurd hev (by simp)
              · split at hev
                · exact absurd hev (by simp)
                · split at hev
                  · exact absurd hev (by simp)
                  · obtain ⟨hle1, hfr1⟩ := ihl.2 _ _ _ _ _ _ heq1
                    obtain ⟨hle2, hfr2⟩ := ihr.2 _ _ _ _ _ _ hev
                    refine ⟨by omega, fun j hj hjo => ?_⟩
                    rw [hfr2 j (by omega) hjo, hfr1 j (by omega) (by omega),
                      hset_ne _ _ _ _ (by omega)]
  | linearScalarMul op s ih =>
    constructor
    · intro rhs out h σ h' σ' hev
      simp only [applyImplH] at hev
      split at hev
      · exact absurd hev (by simp)
      · rename_i h1 σ1 heq1
        simp only [Except.ok.injEq, Prod.mk.injEq] at hev
        obtain ⟨hh, hσ⟩ := hev
        subst hh; subst hσ
        obtain ⟨hle1, hfr1⟩ := ih.1 _ _ _ _ _ _ heq1
        refine ⟨by omega, fun j hj hjo => ?_⟩
        rw [hset_ne _ _ _ _ hjo, hfr1 j (by omega) hjo]
    · intro rhs out h σ h' σ' hev
      simp only [applyAdjointImplH] at hev
      split at hev
      · exact absurd hev (by simp)
      · rename_i h1 σ1 heq1
        simp only [Except.ok.injEq, Prod.mk.injEq] at hev
        obtain ⟨hh, hσ⟩ := hev
        subst hh; subst hσ
        obtain ⟨hle1, hfr1⟩ := ih.2 _ _ _ _ _ _ heq1
        refine ⟨by omega, fun j hj hjo => ?_⟩
        rw [hset_ne _ _ _ _ hjo, hfr1 j (by omega) hjo]

/-- Well-typedness theorem of the evaluation protocol: on a well-formed
operator tree whose external leaves respect their domains/ranges, the heap
run of the unchecked primitive succeeds, leaves in the output cell exactly
the result of the value semantics, and that result is a member of the
declared output space.  (The adjoint part additionally assumes the operator
is linear, since only linear operators carry the adjoint primitive.) -/
theorem evalH_ok (op : Operator) :
    (Operator.wf op = true → Typed op →
      ∀ rhs out h σ, rhs < σ → out < σ → rhs ≠ out →
      memb (Operator.domain op) (h rhs) = true →
      memb (Operator.range op) (h out) = true →
      ∃ y h' σ', applyImplH op rhs out h σ = .ok (h', σ') ∧ h' out = y ∧
        memb (Operator.range op) y = true ∧
        applyImplVal op (h rhs) (h out) = .ok y) ∧
    (Operator.wf op = true → Typed op → Operator.isLinear op = true →
      ∀ rhs out h σ, rhs < σ → out < σ → rhs ≠ out →
      memb (Operator.range op) (h rhs) = true →
      memb (Operator.domain op) (h out) = true →
      ∃ y h' σ', applyAdjointImplH op rhs out h σ = .ok (h', σ') ∧ h' out = y ∧
        memb (Operator.domain op) y = true ∧
        applyAdjointImplVal op (h rhs) (h out) = .ok y) := by
  induction op with
  | leaf L =>
    constructor
    · intro _ htyp rhs out h σ hrσ hoσ hro hmr hmo
      refine ⟨L.f (h rhs), hset h out (L.f (h rhs)), σ, rfl, hset_self _ _ _, ?_, rfl⟩
      exact htyp _ hmr
    · intro _ _ hlin
      simp [Operator.isLinear] at hlin
  | sum op1 op2 ih1 ih2 =>
    constructor
    · intro hwf htyp rhs out h σ hrσ hoσ hro hmr hmo
      simp only [Operator.wf, Bool.and_eq_true, decide_eq_true_eq] at hwf
      obtain ⟨⟨⟨hrr, hdd⟩, hwf1⟩, hwf2⟩ := hwf
      obtain ⟨ht1, ht2⟩ := htyp
      simp only [Operator.domain, Operator.range] at hmr hmo
      -- first recursive call: op1 into out, on the heap with the fresh temporary
      have e0r : hset h σ (emptyElem (Operator.range op1)) rhs = h rhs :=
        hset_ne _ _ _ _ (by omega)
      have e0o : hset h σ (emptyElem (Operator.range op1)) out = h out :=
        hset_ne _ _ _ _ (by omega)
      obtain ⟨y1, h1, σ1, heq1, hout1, hmy1, hval1⟩ :=
        ih1.1 hwf1 ht1 rhs out (hset h σ (emptyElem (Operator.range op1))) (σ + 1)
          (by omega) (by omega) hro (by rw [e0r]; exact hmr) (by rw [e0o]; exact hmo)
      obtain ⟨hle1, hfr1⟩ := (frame_both op1).1 _ _ _ _ _ _ heq1
      rw [e0r, e0o] at hval1
      -- second recursive call: op2 into the temporary
      have e1r : h1 rhs = h rhs := by
        rw [hfr1 rhs (by omega) hro]; exact e0r
      have e1t : h1 σ = emptyElem (Operator.range op1) := by
        rw [hfr1 σ (by omega) (by omega)]; exact hset_self _ _ _
      obtain ⟨y2, h2, σ2, heq2, hout2, hmy2, hval2⟩ :=
        ih2.1 hwf2 ht2 rhs σ h1 σ1 (by omega) (by omega) (by omega)
          (by rw [e1r, ← hdd]; exact hmr) (by rw [e1t, ← hrr]; exact memb_emptyElem _)
      obtain ⟨hle2, hfr2⟩ := (frame_both op2).1 _ _ _ _ _ _ heq2
      rw [e1r, e1t] at hval2
      have e2o : h2 out = y1 := by
        rw [hfr2 out (by omega) (by omega)]; exact hout1
      rw [← hrr] at hmy2
      refine ⟨ipAdd y1 y2, hset h2 out (ipAdd (h2 out) (h2 σ)), σ2, ?_, ?_, ?_, ?_⟩
      · simp only [applyImplH, Operator.range, heq1, heq2]
      · rw [hset_self, e2o, hout2]
      · exact memb_ipAdd _ _ _ hmy1 hmy2
      · simp only [applyImplVal, Operator.range, hval1, hval2]
    · intro _ _ hlin
      simp [Operator.isLinear] at hlin
  | composition left right ihl ihr =>
    constructor
    · intro hwf htyp rhs out h σ hrσ hoσ hro hmr hmo
      simp only [Operator.wf, Bool.and_eq_true, decide_eq_true_eq] at hwf
      obtain ⟨⟨hrd, hwfl⟩, hwfr⟩ := hwf
      obtain ⟨htl, htr⟩ := htyp
      simp only [Operator.domain, Operator.range] at hmr hmo
      have e0r : hset h σ (emptyElem (Operator.range right)) rhs = h rhs :=
        hset_ne _ _ _ _ (by omega)
      have e0o : hset h σ (emptyElem (Operator.range right)) out = h out :=
        hset_ne _ _ _ _ (by omega)
      -- evaluate right into the temporary
      obtain ⟨t, h1, σ1, heq1, hout1, hmt, hval1⟩ :=
        ihr.1 hwfr htr rhs σ (hset h σ (emptyElem (Operator.range right))) (σ + 1)
          (by omega) (by omega) (by omega) (by rw [e0r]; exact hmr)
          (by rw [hset_self]; exact memb_emptyElem _)
      obtain ⟨hle1, hfr1⟩ := (frame_both right).1 _ _ _ _ _ _ heq1
      rw [e0r, hset_self] at hval1
      -- evaluate left on the temporary into out
      have e1t : h1 σ = t := hout1
      have e1o : h1 out = h out := by
        rw [hfr1 out (by omega) (by omega)]; exact e0o
      obtain ⟨y, h2, σ2, heq2, hout2, hmy, hval2⟩ :=
        ihl.1 hwfl htl σ out h1 σ1 (by omega) (by omega) (by omega)
          (by rw [e1t, ← hrd]; exact hmt) (by rw [e1o]; exact hmo)
      rw [e1t, e1o] at hval2
      refine ⟨y, h2, σ2, ?_, hout2, hmy, ?_⟩
      · simp only [applyImplH, heq1, heq2]
      · simp only [applyImplVal, hval1, hval2]
    · intro _ _ hlin
      simp [Operator.isLinear] at hlin
  | pointwiseProduct op1 op2 ih1 ih2 =>
    constructor
    · intro hwf htyp rhs out h σ hrσ hoσ hro hmr hmo
      simp only [Operator.wf, Bool.and_eq_true, decide_eq_true_eq] at hwf
      obtain ⟨⟨⟨hrr, hdd⟩, hwf1⟩, hwf2⟩ := hwf
      obtain ⟨ht1, ht2⟩ := htyp
      simp only [Operator.domain, Operator.range] at hmr hmo
      have e0r : hset h σ (emptyElem (Operator.range op2)) rhs = h rhs :=
        hset_ne _ _ _ _ (by omega)
      have e0o : hset h σ (emptyElem (Operator.range op2)) out = h out :=
        hset_ne _ _ _ _ (by omega)
      obtain ⟨y1, h1, σ1, heq1, hout1, hmy1, hval1⟩ :=
        ih1.1 hwf1 ht1 rhs out (hset h σ (emptyElem (Operator.range op2))) (σ + 1)
          (by omega) (by omega) hro (by rw [e0r]; exact hmr) (by rw [e0o]; exact hmo)
      obtain ⟨hle1, hfr1⟩ := (frame_both op1).1 _ _ _ _ _ _ heq1
      rw [e0r, e0o] at hval1
      have e1r : h1 rhs = h rhs := by
        rw [hfr1 rhs (by omega) hro]; exact e0r
      have e1t : h1 σ = emptyElem (Operator.range op2) := by
        rw [hfr1 σ (by omega) (by omega)]; exact hset_self _ _ _
      obtain ⟨y2, h2, σ2, heq2, hout2, hmy2, hval2⟩ :=
        ih2.1 hwf2 ht2 rhs σ h1 σ1 (by omega) (by omega) (by omega)
          (by rw [e1r, ← hdd]; exact hmr) (by rw [e1t]; exact memb_emptyElem _)
      obtain ⟨hle2, hfr2⟩ := (frame_both op2).1 _ _ _ _ _ _ heq2
      rw [e1r, e1t] at hval2
      have e2o : h2 out = y1 := by
        rw [hfr2 out (by omega) (by omega)]; exact hout1
      rw [← hrr] at hmy2
      refine ⟨ipMul y1 y2, hset h2 out (ipMul (h2 out) (h2 σ)), σ2, ?_, ?_, ?_, ?_⟩
      · simp only [applyImplH, Operator.range, heq1, heq2]
      · rw [hset_self, e2o, hout2]
      · exact memb_ipMul _ _ _ hmy1 hmy2
      · simp only [applyImplVal, Operator.range, hval1, hval2]
    · intro _ _ hlin
      simp [Operator.isLinear] at hlin
  | leftScalarMul op s ih =>
    constructor
    · intro hwf htyp rhs out h σ hrσ hoσ hro hmr hmo
      simp only [Operator.wf] at hwf
      simp only [Operator.domain, Operator.range] at hmr hmo
      obtain ⟨y1, h1, σ1, heq1, hout1, hmy1, hval1⟩ :=
        ih.1 hwf htyp rhs out h σ hrσ hoσ hro hmr hmo
      refine ⟨scale s y1, hset h1 out (scale s (h1 out)), σ1, ?_, ?_, ?_, ?_⟩
      · simp only [applyImplH, heq1]
      · rw [hset_self, hout1]
      · rw [memb_scale]; exact hmy1
      · simp only [applyImplVal, hval1]
    · intro _ _ hlin
      simp [Operator.isLinear] at hlin
  | rightScalarMul op s ih =>
    constructor
    · intro hwf htyp rhs out h σ hrσ hoσ hro hmr hmo
      simp only [Operator.wf] at hwf
      simp only [Operator.domain, Operator.range] at hmr hmo
      have e1t : hset (hset h σ (h rhs)) σ (scale s (hset h σ (h rhs) σ)) σ
          = scale s (h rhs) := by
        rw [hset_self, hset_self]
      have e1o : hset (hset h σ (h rhs)) σ (scale s (hset h σ (h rhs) σ)) out
          = h out := by
        rw [hset_ne _ _ _ _ (by omega), hset_ne _ _ _ _ (by omega)]
      obtain ⟨y, h2, σ2, heq, hout, hmy, hval⟩ :=
        ih.1 hwf htyp σ out
          (hset (hset h σ (h rhs)) σ (scale s (hset h σ (h rhs) σ))) (σ + 1)
          (by omega) (by omega) (by omega)
          (by rw [e1t, memb_scale]; exact hmr) (by rw [e1o]; exact hmo)
      rw [e1t, e1o] at hval
      refine ⟨y, h2, σ2, ?_, hout, hmy, ?_⟩
      · simp only [applyImplH]
        exact heq
      · simp only [applyImplVal]
        exact hval
    · intro _ _ hlin
      simp [Operator.isLinear] at hlin
  | linLeaf L =>
    constructor
    · intro _ htyp rhs out h σ hrσ hoσ hro hmr hmo
      obtain ⟨ht1, ht2⟩ := htyp
      refine ⟨L.f (h rhs), hset h out (L.f (h rhs)), σ, rfl, hset_self _ _ _, ?_, rfl⟩
      exact ht1 _ hmr
    · intro _ htyp _ rhs out h σ hrσ hoσ hro hmr hmo
      obtain ⟨ht1, ht2⟩ := htyp
      refine ⟨L.fadj (h rhs), hset h out (L.fadj (h rhs)), σ, rfl, hset_self _ _ _, ?_, rfl⟩
      exact ht2 _ hmr
  | selfAdjointLeaf L =>
    constructor
    · intro _ htyp rhs out h σ hrσ hoσ hro hmr hmo
      obtain ⟨hde, htf⟩ := htyp
      refine ⟨L.f (h rhs), hset h out (L.f (h rhs)), σ, rfl, hset_self _ _ _, ?_, rfl⟩
      exact htf _ hmr
    · intro _ htyp _ rhs out h σ hrσ hoσ hro hmr hmo
      obtain ⟨hde, htf⟩ := htyp
      refine ⟨L.f (h rhs), hset h out (L.f (h rhs)), σ, rfl, hset_self _ _ _, ?_, rfl⟩
      simp only [Operator.domain]
      simp only [Operator.range] at hmr
      rw [hde]
      exact htf _ (by rw [hde]; exact hmr)
  | adjoint op ih =>
    constructor
    · intro hwf htyp rhs out h σ hrσ hoσ hro hmr hmo
      simp only [Operator.wf, Bool.and_eq_true] at hwf
      obtain ⟨hlin', hwf'⟩ := hwf
      simp only [Operator.domain, Operator.range] at hmr hmo
      obtain ⟨y, h1, σ1, heq, hout, hmy, hval⟩ :=
        ih.2 hwf' htyp hlin' rhs out h σ hrσ hoσ hro hmr hmo
      refine ⟨y, h1, σ1, ?_, hout, ?_, ?_⟩
      · simp only [applyImplH]
        exact heq
      · simp only [Operator.range]
        exact hmy
      · simp only [applyImplVal]
        exact hval
    · intro hwf htyp _ rhs out h σ hrσ hoσ hro hmr hmo
      simp only [Operator.wf, Bool.and_eq_true] at hwf
      obtain ⟨hlin', hwf'⟩ := hwf
      simp only [Operator.domain, Operator.range] at hmr hmo
      obtain ⟨y, h1, σ1, heq, hout, hmy, hval⟩ :=
        ih.1 hwf' htyp rhs out h σ hrσ hoσ hro hmr hmo
      refine ⟨y, h1, σ1, ?_, hout, ?_, ?_⟩
      · simp only [applyAdjointImplH]
        exact heq
      · simp only [Operator.domain]
        exact hmy
      · simp only [applyAdjointImplVal]
        exact hval
  | linearSum op1 op2 ih1 ih2 =>
    constructor
    · intro hwf htyp rhs out h σ hrσ hoσ hro hmr hmo
      simp only [Operator.wf, Bool.and_eq_true, decide_eq_true_eq] at hwf
      obtain ⟨⟨⟨⟨⟨hl1, hl2⟩, hrr⟩, hdd⟩, hwf1⟩, hwf2⟩ := hwf
      obtain ⟨ht1, ht2⟩ := htyp
      simp only [Operator.domain, Operator.range] at hmr hmo
      have e0r : hset h σ (emptyElem (Operator.range op1)) rhs = h rhs :=
        hset_ne _ _ _ _ (by omega)
      have e0o : hset h σ (emptyElem (Operator.range op1)) out = h out :=
        hset_ne _ _ _ _ (by omega)
      obtain ⟨y1, h1, σ1, heq1, hout1, hmy1, hval1⟩ :=
        ih1.1 hwf1 ht1 rhs out (hset h σ (emptyElem (Operator.range op1))) (σ + 1)
          (by omega) (by omega) hro (by rw [e0r]; exact hmr) (by rw [e0o]; exact hmo)
      obtain ⟨hle1, hfr1⟩ := (frame_both op1).1 _ _ _ _ _ _ heq1
      rw [e0r, e0o] at hval1
      have e1r : h1 rhs = h rhs := by
        rw [hfr1 rhs (by omega) hro]; exact e0r
      have e1t : h1 σ = emptyElem (Operator.range op1) := by
        rw [hfr1 σ (by omega) (by omega)]; exact hset_self _ _ _
      obtain ⟨y2, h2, σ2, heq2, hout2, hmy2, hval2⟩ :=
        ih2.1 hwf2 ht2 rhs σ h1 σ1 (by omega) (by omega) (by omega)
          (by rw [e1r, ← hdd]; exact hmr) (by rw [e1t, ← hrr]; exact memb_emptyElem _)
      obtain ⟨hle2, hfr2⟩ := (frame_both op2).1 _ _ _ _ _ _ heq2
      rw [e1r, e1t] at hval2
      have e2o : h2 out = y1 := by
        rw [hfr2 out (by omega) (by omega)]; exact hout1
      rw [← hrr] at hmy2
      refine ⟨ipAdd y1 y2, hset h2 out (ipAdd (h2 out) (h2 σ)), σ2, ?_, ?_, ?_, ?_⟩
      · simp only [applyImplH, Operator.range, heq1, heq2]
      · rw [hset_self, e2o, hout2]
      · exact memb_ipAdd _ _ _ hmy1 hmy2
      · simp only [applyImplVal, Operator.range, hval1, hval2]
    · intro hwf htyp _ rhs out h σ hrσ hoσ hro hmr hmo
      simp only [Operator.wf, Bool.and_eq_true, decide_eq_true_eq] at hwf
      obtain ⟨⟨⟨⟨⟨hl1, hl2⟩, hrr⟩, hdd⟩, hwf1⟩, hwf2⟩ := hwf
      obtain ⟨ht1, ht2⟩ := htyp
      simp only [Operator.domain, Operator.range] at hmr hmo
      have e0r : hset h σ (emptyElem (Operator.domain op1)) rhs = h rhs :=
        hset_ne _ _ _ _ (by omega)
      have e0o : hset h σ (emptyElem (Operator.domain op1)) out = h out :=
        hset_ne _ _ _ _ (by omega)
      obtain ⟨y1, h1, σ1, heq1, hout1, hmy1, hval1⟩ :=
        ih1.2 hwf1 ht1 hl1 rhs out (hset h σ (emptyElem (Operator.domain op1))) (σ + 1)
          (by omega) (by omega) hro (by rw [e0r]; exact hmr) (by rw [e0o]; exact hmo)
      obtain ⟨hle1, hfr1⟩ := (frame_both op1).2 _ _ _ _ _ _ heq1
      rw [e0r, e0o] at hval1
      have e1r : h1 rhs = h rhs := by
        rw [hfr1 rhs (by omega) hro]; exact e0r
      have e1t : h1 σ = emptyElem (Operator.domain op1) := by
        rw [hfr1 σ (by omega) (by omega)]; exact hset_self _ _ _
      obtain ⟨y2, h2, σ2, heq2, hout2, hmy2, hval2⟩ :=
        ih2.2 hwf2 ht2 hl2 rhs σ h1 σ1 (by omega) (by omega) (by omega)
          (by rw [e1r, ← hrr]; exact hmr) (by rw [e1t, ← hdd]; exact memb_emptyElem _)
      obtain ⟨hle2, hfr2⟩ := (frame_both op2).2 _ _ _ _ _ _ heq2
      rw [e1r, e1t] at hval2
      have e2o : h2 out = y1 := by
        rw [hfr2 out (by omega) (by omega)]; exact hout1
      rw [← hdd] at hmy2
      refine ⟨ipAdd y1 y2, hset h2 out (ipAdd (h2 out) (h2 σ)), σ2, ?_, ?_, ?_, ?_⟩
      · simp only [applyAdjointImplH, Operator.domain, heq1, heq2]
      · rw [hset_self, e2o, hout2]
      · exact memb_ipAdd _ _ _ hmy1 hmy2
      · simp only [applyAdjointImplVal, Operator.domain, hval1, hval2]
  | linearComposition left right ihl ihr =>
    constructor
    · intro hwf htyp rhs out h σ hrσ hoσ hro hmr hmo
      simp only [Operator.wf, Bool.and_eq_true, decide_eq_true_eq] at hwf
      obtain ⟨⟨⟨⟨hll, hlr⟩, hrd⟩, hwfl⟩, hwfr⟩ := hwf
      obtain ⟨htl, htr⟩ := htyp
      simp only [Operator.domain, Operator.range] at hmr hmo
      have e0r : hset h σ (emptyElem (Operator.range right)) rhs = h rhs :=
        hset_ne _ _ _ _ (by omega)
      have e0o : hset h σ (emptyElem (Operator.range right)) out = h out :=
        hset_ne _ _ _ _ (by omega)
      obtain ⟨t, h1, σ1, heq1, hout1, hmt, hval1⟩ :=
        ihr.1 hwfr htr rhs σ (hset h σ (emptyElem (Operator.range right))) (σ + 1)
          (by omega) (by omega) (by omega) (by rw [e0r]; exact hmr)
          (by rw [hset_self]; exact memb_emptyElem _)
      obtain ⟨hle1, hfr1⟩ := (frame_both right).1 _ _ _ _ _ _ heq1
      rw [e0r, hset_self] at hval1
      have e1t : h1 σ = t := hout1
      have e1o : h1 out = h out := by
        rw [hfr1 out (by omega) (by omega)]; exact e0o
      obtain ⟨y, h2, σ2, heq2, hout2, hmy, hval2⟩ :=
        ihl.1 hwfl htl σ out h1 σ1 (by omega) (by omega) (by omega)
          (by rw [e1t, ← hrd]; exact hmt) (by rw [e1o]; exact hmo)
      rw [e1t, e1o] at hval2
      refine ⟨y, h2, σ2, ?_, hout2, hmy, ?_⟩
      · simp only [applyImplH, heq1, heq2]
      · simp only [applyImplVal, hval1, hval2]
    · intro hwf htyp _ rhs out h σ hrσ hoσ hro hmr hmo
      simp only [Operator.wf, Bool.and_eq_true, decide_eq_true_eq] at hwf
      obtain ⟨⟨⟨⟨hll, hlr⟩, hrd⟩, hwfl⟩, hwfr⟩ := hwf
      obtain ⟨htl, htr⟩ := htyp
      simp only [Operator.domain, Operator.range] at hmr hmo
      have e0r : hset h σ (emptyElem (Operator.domain left)) rhs = h rhs :=
        hset_ne _ _ _ _ (by omega)
      have e0o : hset h σ (emptyElem (Operator.domain left)) out = h out :=
        hset_ne _ _ _ _ (by omega)
      -- the inlined checked call left.applyAdjoint(rhs, tmp)
      obtain ⟨t, h1, σ1, heq1, hout1, hmt, hval1⟩ :=
        ihl.2 hwfl htl hll rhs σ (hset h σ (emptyElem (Operator.domain left))) (σ + 1)
          (by omega) (by omega) (by omega) (by rw [e0r]; exact hmr)
          (by rw [hset_self]; exact memb_emptyElem _)
      obtain ⟨hle1, hfr1⟩ := (frame_both left).2 _ _ _ _ _ _ heq1
      rw [e0r, hset_self] at hval1
      have e1t : h1 σ = t := hout1
      have e1o : h1 out = h out := by
        rw [hfr1 out (by omega) (by omega)]; exact e0o
      -- the inlined checked call right.applyAdjoint(tmp, out)
      obtain ⟨z, h2, σ2, heq2, hout2, hmz, hval2⟩ :=
        ihr.2 hwfr htr hlr σ out h1 σ1 (by omega) (by omega) (by omega)
          (by rw [e1t, hrd]; exact hmt) (by rw [e1o]; exact hmo)
      rw [e1t, e1o] at hval2
      have c1 : memb (Operator.range left)
          (hset h σ (emptyElem (Operator.domain left)) rhs) = true := by
        rw [e0r]; exact hmr
      have c2 : memb (Operator.domain left)
          (hset h σ (emptyElem (Operator.domain left)) σ) = true := by
        rw [hset_self]; exact memb_emptyElem _
      have c3 : (rhs == σ) = false := by
        simp only [beq_eq_false_iff_ne]; omega
      have c4 : memb (Operator.range right) (h1 σ) = true := by
        rw [e1t, hrd]; exact hmt
      have c5 : memb (Operator.domain right) (h1 out) = true := by
        rw [e1o]; exact hmo
      have c6 : (σ == out) = false := by
        simp only [beq_eq_false_iff_ne]; omega
      have v1 : memb (Operator.range left) (h rhs) = true := hmr
      have v2 : memb (Operator.domain left) (emptyElem (Operator.domain left)) = true :=
        memb_emptyElem _
      have v4 : memb (Operator.range right) t = true := by rw [hrd]; exact hmt
      have v5 : memb (Operator.domain right) (h out) = true := hmo
      refine ⟨z, h2, σ2, ?_, hout2, hmz, ?_⟩
      · simp only [applyAdjointImplH, c1, c2, c3, c4, c5, c6, Bool.not_true,
          Bool.false_eq_true, if_false, heq1, heq2]
      · simp only [applyAdjointImplVal, v1, v2, v4, v5, Bool.not_true,
          Bool.false_eq_true, if_false, hval1, hval2]
  | linearScalarMul op s ih =>
    constructor
    · intro hwf htyp rhs out h σ hrσ hoσ hro hmr hmo
      simp only [Operator.wf, Bool.and_eq_true] at hwf
      obtain ⟨hl, hwf'⟩ := hwf
      simp only [Operator.domain, Operator.range] at hmr hmo
      obtain ⟨y1, h1, σ1, heq1, hout1, hmy1, hval1⟩ :=
        ih.1 hwf' htyp rhs out h σ hrσ hoσ hro hmr hmo
      refine ⟨scale s y1, hset h1 out (scale s (h1 out)), σ1, ?_, ?_, ?_, ?_⟩
      · simp only [applyImplH, heq1]
      · rw [hset_self, hout1]
      · rw [memb_scale]; exact hmy1
      · simp only [applyImplVal, hval1]
    · intro hwf htyp _ rhs out h σ hrσ hoσ hro hmr hmo
      simp only [Operator.wf, Bool.and_eq_true] at hwf
      obtain ⟨hl, hwf'⟩ := hwf
      simp only [Operator.domain, Operator.range] at hmr hmo
      obtain ⟨y1, h1, σ1, heq1, hout1, hmy1, hval1⟩ :=
        ih.2 hwf' htyp hl rhs out h σ hrσ hoσ hro hmr hmo
      refine ⟨scale s y1, hset h1 out (scale s (h1 out)), σ1, ?_, ?_, ?_, ?_⟩
      · simp only [applyAdjointImplH, heq1]
      · rw [hset_self, hout1]
      · rw [memb_scale]; exact hmy1
      · simp only [applyAdjointImplVal, hval1]

/-- Homogeneity of linear operator evaluation: if the external linear leaves
commute with scalar multiplication, then so does the whole (well-formed)
linear operator tree, for both the forward and the adjoint primitive. -/
theorem hom_val (op : Operator) :
    (Operator.wf op = true → Operator.isLinear op = true → HomLeaves op →
      ∀ a x out y, applyImplVal op x out = .ok y →
        applyImplVal op (scale a x) out = .ok (scale a y)) ∧
    (Operator.wf op = true → Operator.isLinear op = true → HomLeaves op →
      ∀ a x out y, applyAdjointImplVal op x out = .ok y →
        applyAdjointImplVal op (scale a x) out = .ok (scale a y)) := by
  induction op with
  | leaf L =>
    exact ⟨fun _ hlin => by simp [Operator.isLinear] at hlin,
      fun _ hlin => by simp [Operator.isLinear] at hlin⟩
  | sum op1 op2 ih1 ih2 =>
    exact ⟨fun _ hlin => by simp [Operator.isLinear] at hlin,
      fun _ hlin => by simp [Operator.isLinear] at hlin⟩
  | composition left right ihl ihr =>
    exact ⟨fun _ hlin => by simp [Operator.isLinear] at hlin,
      fun _ hlin => by simp [Operator.isLinear] at hlin⟩
  | pointwiseProduct op1 op2 ih1 ih2 =>
    exact ⟨fun _ hlin => by simp [Operator.isLinear] at hlin,
      fun _ hlin => by simp [Operator.isLinear] at hlin⟩
  | leftScalarMul op s ih =>
    exact ⟨fun _ hlin => by simp [Operator.isLinear] at hlin,
      fun _ hlin => by simp [Operator.isLinear] at hlin⟩
  | rightScalarMul op s ih =>
    exact ⟨fun _ hlin => by simp [Operator.isLinear] at hlin,
      fun _ hlin => by simp [Operator.isLinear] at hlin⟩
  | linLeaf L =>
    constructor
    · intro _ _ hhom a x out y hev
      simp only [applyImplVal, Except.ok.injEq] at hev ⊢
      rw [hhom.1 a x, hev]
    · intro _ _ hhom a x out y hev
      simp only [applyAdjointImplVal, Except.ok.injEq] at hev ⊢
      rw [hhom.2 a x, hev]
  | selfAdjointLeaf L =>
    constructor
    · intro _ _ hhom a x out y hev
      simp only [applyImplVal, Except.ok.injEq] at hev ⊢
      rw [hhom a x, hev]
    · intro _ _ hhom a x out y hev
      simp only [applyAdjointImplVal, Except.ok.injEq] at hev ⊢
      rw [hhom a x, hev]
  | adjoint op ih =>
    constructor
    · intro hwf _ hhom a x out y hev
      simp only [Operator.wf, Bool.and_eq_true] at hwf
      obtain ⟨hlin', hwf'⟩ := hwf
      simp only [applyImplVal] at hev ⊢
      exact ih.2 hwf' hlin' hhom a x out y hev
    · intro hwf _ hhom a x out y hev
      simp only [Operator.wf, Bool.and_eq_true] at hwf
      obtain ⟨hlin', hwf'⟩ := hwf
      simp only [applyAdjointImplVal] at hev ⊢
      exact ih.1 hwf' hlin' hhom a x out y hev
  | linearSum op1 op2 ih1 ih2 =>
    constructor
    · intro hwf _ hhom a x out y hev
      simp only [Operator.wf, Bool.and_eq_true, decide_eq_true_eq] at hwf
      obtain ⟨⟨⟨⟨⟨hl1, hl2⟩, hrr⟩, hdd⟩, hwf1⟩, hwf2⟩ := hwf
      obtain ⟨hh1, hh2⟩ := hhom
      simp only [applyImplVal] at hev ⊢
      split at hev
      · exact absurd hev (by simp)
      · rename_i y1 heq1
        split at hev
        · exact absurd hev (by simp)
        · rename_i y2 heq2
          simp only [Except.ok.injEq] at hev
          subst hev
          rw [ih1.1 hwf1 hl1 hh1 a x out y1 heq1,
            ih2.1 hwf2 hl2 hh2 a x _ y2 heq2, scale_ipAdd]
    · intro hwf _ hhom a x out y hev
      simp only [Operator.wf, Bool.and_eq_true, decide_eq_true_eq] at hwf
      obtain ⟨⟨⟨⟨⟨hl1, hl2⟩, hrr⟩, hdd⟩, hwf1⟩, hwf2⟩ := hwf
      obtain ⟨hh1, hh2⟩ := hhom
      simp only [applyAdjointImplVal] at hev ⊢
      split at hev
      · exact absurd hev (by simp)
      · rename_i y1 heq1
        split at hev
        · exact absurd hev (by simp)
        · rename_i y2 heq2
          simp only [Except.ok.injEq] at hev
          subst hev
          rw [ih1.2 hwf1 hl1 hh1 a x out y1 heq1,
            ih2.2 hwf2 hl2 hh2 a x _ y2 heq2, scale_ipAdd]
  | linearComposition left right ihl ihr =>
    constructor
    · intro hwf _ hhom a x out y hev
      simp only [Operator.wf, Bool.and_eq_true, decide_eq_true_eq] at hwf
      obtain ⟨⟨⟨⟨hll, hlr⟩, hrd⟩, hwfl⟩, hwfr⟩ := hwf
      obtain ⟨hhl, hhr⟩ := hhom
      simp only [applyImplVal] at hev ⊢
      split at hev
      · exact absurd hev (by simp)
      · rename_i t heq1
        rw [ihr.1 hwfr hlr hhr a x _ t heq1]
        exact ihl.1 hwfl hll hhl a t out y hev
    · intro hwf _ hhom a x out y hev
      simp only [Operator.wf, Bool.and_eq_true, decide_eq_true_eq] at hwf
      obtain ⟨⟨⟨⟨hll, hlr⟩, hrd⟩, hwfl⟩, hwfr⟩ := hwf
      obtain ⟨hhl, hhr⟩ := hhom
      simp only [applyAdjointImplVal] at hev ⊢
      split at hev
      · exact absurd hev (by simp)
      · split at hev
        · exact absurd hev (by simp)
        · rename_i hc1 hc2
          split at hev
          · exact absurd hev (by simp)
          · rename_i t heq1
            split at hev
            · exact absurd hev (by simp)
            · split at hev
              · exact absurd hev (by simp)
              · rename_i hc4 hc5
                have hm1 : memb (Operator.range left) x = true := by
                  simpa using hc1
                have hm4 : memb (Operator.range right) t = true := by
                  simpa using hc4
                have hm5 : memb (Operator.domain right) out = true := by
                  simpa using hc5
                have c1' : memb (Operator.range left) (scale a x) = true := by
                  rw [memb_scale]; exact hm1
                have heq1' := ihl.2 hwfl hll hhl a x _ t heq1
                have c4' : memb (Operator.range right) (scale a t) = true := by
                  rw [memb_scale]; exact hm4
                simp only [c1', memb_emptyElem, c4', hm5, Bool.not_true,
                  Bool.false_eq_true, if_false, heq1']
                exact ihr.2 hwfr hlr hhr a t out y hev
  | linearScalarMul op s ih =>
    constructor
    · intro hwf _ hhom a x out y hev
      simp only [Operator.wf, Bool.and_eq_true] at hwf
      obtain ⟨hl, hwf'⟩ := hwf
      simp only [applyImplVal] at hev ⊢
      split at hev
      · exact absurd hev (by simp)
      · rename_i y1 heq1
        simp only [Except.ok.injEq] at hev
        subst hev
        rw [ih.1 hwf' hl hhom a x out y1 heq1, scale_scale]
    · intro hwf _ hhom a x out y hev
      simp only [Operator.wf, Bool.and_eq_true] at hwf
      obtain ⟨hl, hwf'⟩ := hwf
      simp only [applyAdjointImplVal] at hev ⊢
      split at hev
      · exact absurd hev (by simp)
      · rename_i y1 heq1
        simp only [Except.ok.injEq] at hev
        subst hev
        rw [ih.2 hwf' hl hhom a x out y1 heq1, scale_scale]

/-- The doubling leaf operator respects its declared spaces. -/
theorem typed_dblOp : Typed dblOp := by
  refine ⟨?_, ?_⟩ <;> intro x hx <;> simpa [memb] using hx

/-- The tripling leaf operator respects its declared spaces. -/
theorem typed_trpOp : Typed trpOp := by
  refine ⟨?_, ?_⟩ <;> intro x hx <;> simpa [memb] using hx

/-- The self-adjoint doubling leaf operator respects its declared spaces. -/
theorem typed_sadOp : Typed sadOp := by
  refine ⟨rfl, ?_⟩
  intro x hx
  simpa [memb, sadLeaf] using hx

/-- The doubling leaf operator's primitives are homogeneous. -/
theorem hom_dblOp : HomLeaves dblOp := by
  refine ⟨?_, ?_⟩ <;> intro s x <;> simp only [scale, List.map_map] <;>
    refine List.map_congr_left (fun t _ => ?_) <;> simp only [Function.comp_apply] <;>
    ring

/-- C1: what the source actually binds to the two `*` directions.  The claim
states that `a * A` (scalar on the left) builds the left-multiplication
combinator (scaling the output) and `A * a` builds the right-multiplication
combinator (scaling the input).  Python dispatches `a * A` to
`Operator.__rmul__`, which builds `OperatorRightScalarMultiplication`, and
`A * a` to `Operator.__mul__`, which builds
`OperatorLeftScalarMultiplication` — the reverse of the claim and of the two
methods' own docstrings; on the non-linear squaring operator at `x = [3]`
with scalar `2` the two products differ (`[36]` against `[18]`).  The
`TypeError` on a non-scalar operand does hold for both methods. -/
theorem c1_scalar_mul_dispatch_swapped :
    scalarTimesOp 2 sqOp = .ok (.rightScalarMul sqOp 2) ∧
    opTimesScalar sqOp 2 = .ok (.leftScalarMul sqOp 2) ∧
    applyImplVal (.rightScalarMul sqOp 2) [3] [0] = .ok [36] ∧
    applyImplVal (.leftScalarMul sqOp 2) [3] [0] = .ok [18] ∧
    ([36] : List Int) ≠ [18] ∧
    Operator.mulDispatch sqOp (.oper dblOp) = .error .scalarTypeError ∧
    Operator.rmulDispatch sqOp (.oper dblOp) = .error .scalarTypeError :=
  ⟨rfl, rfl, rfl, rfl, by decide, rfl, rfl⟩

/-- C2: the checked entry point `apply` performs, in order, the domain check
on `rhs`, the range check on `out`, and the object-identity aliasing check,
raising the corresponding error; otherwise it delegates to the unchecked
primitive `applyImpl`, and on every well-formed well-typed operator variant
(composites included) it returns normally.  The checked adjoint entry point
of linear operators performs the mirrored checks in the same order. -/
theorem c2_apply_checked (op : Operator) (rhs out : Nat) (h : Heap) (σ : Nat) :
    (memb (Operator.domain op) (h rhs) = false →
      Operator.apply op rhs out h σ = .error .domainError) ∧
    (memb (Operator.domain op) (h rhs) = true →
      memb (Operator.range op) (h out) = false →
      Operator.apply op rhs out h σ = .error .rangeError) ∧
    (memb (Operator.domain op) (h rhs) = true →
      memb (Operator.range op) (h out) = true → rhs = out →
      Operator.apply op rhs out h σ = .error .aliasingError) ∧
    (memb (Operator.domain op) (h rhs) = true →
      memb (Operator.range op) (h out) = true → rhs ≠ out →
      Operator.apply op rhs out h σ = applyImplH op rhs out h σ) ∧
    (Operator.wf op = true → Typed op → rhs < σ → out < σ → rhs ≠ out →
      memb (Operator.domain op) (h rhs) = true →
      memb (Operator.range op) (h out) = true →
      ∃ h' σ', Operator.apply op rhs out h σ = .ok (h', σ')) ∧
    (Operator.isLinear op = true →
      (memb (Operator.range op) (h rhs) = false →
        Operator.applyAdjoint op rhs out h σ = .error .domainError) ∧
      (memb (Operator.range op) (h rhs) = true →
        memb (Operator.domain op) (h out) = false →
        Operator.applyAdjoint op rhs out h σ = .error .rangeError) ∧
      (memb (Operator.range op) (h rhs) = true →
        memb (Operator.domain op) (h out) = true → rhs = out →
        Operator.applyAdjoint op rhs out h σ = .error .aliasingError) ∧
      (memb (Operator.range op) (h rhs) = true →
        memb (Operator.domain op) (h out) = true → rhs ≠ out →
        Operator.applyAdjoint op rhs out h σ = applyAdjointImplH op rhs out h σ)) := by
  refine ⟨?_, ?_, ?_, ?_, ?_, ?_⟩
  · intro hd
    simp [Operator.apply, hd]
  · intro hd hr
    simp [Operator.apply, hd, hr]
  · intro hd hr he
    subst he
    simp [Operator.apply, hd, hr]
  · intro hd hr hne
    have hb : (rhs == out) = false := beq_eq_false_iff_ne.mpr hne
    simp [Operator.apply, hd, hr, hb]
  · intro hwf htyp h1 h2 h3 hd hr
    obtain ⟨y, h', σ', heq, _, _, _⟩ :=
      (evalH_ok op).1 hwf htyp rhs out h σ h1 h2 h3 hd hr
    have hb : (rhs == out) = false := beq_eq_false_iff_ne.mpr h3
    exact ⟨h', σ', by simp [Operator.apply, hd, hr, hb, heq]⟩
  · intro hlin
    refine ⟨?_, ?_, ?_, ?_⟩
    · intro hd
      simp [Operator.applyAdjoint, hlin, hd]
    · intro hd hr
      simp [Operator.applyAdjoint, hlin, hd, hr]
    · intro hd hr he
      subst he
      simp [Operator.applyAdjoint, hlin, hd, hr]
    · intro hd hr hne
      have hb : (rhs == out) = false := beq_eq_false_iff_ne.mpr hne
      simp [Operator.applyAdjoint, hlin, hd, hr, hb]

/-- Witness for C2 at a concrete linear operator and heap: all three error
branches fire as claimed and the valid call returns normally. -/
theorem c2_apply_checked_witness :
    Operator.apply dblOp 2 1 exHeap 3 = .error .domainError ∧
    Operator.apply dblOp 0 2 exHeap 3 = .error .rangeError ∧
    Operator.apply dblOp 0 0 exHeap 3 = .error .aliasingError ∧
    (∃ h' σ', Operator.apply dblOp 0 1 exHeap 3 = .ok (h', σ')) :=
  ⟨(c2_apply_checked dblOp 2 1 exHeap 3).1 (by decide),
   (c2_apply_checked dblOp 0 2 exHeap 3).2.1 (by decide) (by decide),
   (c2_apply_checked dblOp 0 0 exHeap 3).2.2.1 (by decide) (by decide) rfl,
   (c2_apply_checked dblOp 0 1 exHeap 3).2.2.2.2.1 rfl typed_dblOp (by omega)
     (by omega) (by omega) (by decide) (by decide)⟩

/-- C3: the sum of two operators with equal domains and equal ranges applies
each operand to `x` and adds the results element-wise; the domain and range
of the sum are the shared ones. -/
theorem c3_operator_sum (A B : Operator) (x out ya yb : List Int)
    (hdd : Operator.domain A = Operator.domain B)
    (hrr : Operator.range A = Operator.range B)
    (hA : applyImplVal A x out = .ok ya)
    (hB : applyImplVal B x (emptyElem (Operator.range A)) = .ok yb) :
    applyImplVal (.sum A B) x out = .ok (List.zipWith (· + ·) ya yb) ∧
    Operator.domain (.sum A B) = Operator.domain A ∧
    Operator.range (.sum A B) = Operator.range A := by
  refine ⟨?_, rfl, rfl⟩
  simp only [applyImplVal, Operator.range, hA, hB]
  rfl

/-- Witness for C3: doubling plus tripling applied to `[3]` gives `[15]`. -/
theorem c3_operator_sum_witness :
    applyImplVal (.sum dblOp trpOp) [3] [0] = .ok [15] := by
  have h := (c3_operator_sum dblOp trpOp [3] [0] [6] [9] rfl rfl rfl rfl).1
  rw [h]
  rfl

/-- C4: the composition applies `right` to `x` into a temporary from
`right.range.empty()`, then `left` to that temporary; its domain is
`right`'s and its range is `left`'s. -/
theorem c4_composition (A B : Operator) (x t y out : List Int)
    (hcompat : Operator.range B = Operator.domain A)
    (hB : applyImplVal B x (emptyElem (Operator.range B)) = .ok t)
    (hA : applyImplVal A t out = .ok y) :
    applyImplVal (.composition A B) x out = .ok y ∧
    Operator.domain (.composition A B) = Operator.domain B ∧
    Operator.range (.composition A B) = Operator.range A := by
  refine ⟨?_, rfl, rfl⟩
  simp only [applyImplVal, hB]
  exact hA

/-- Witness for C4: doubling composed with tripling applied to `[3]` gives
`[18]`. -/
theorem c4_composition_witness :
    applyImplVal (.composition dblOp trpOp) [3] [0] = .ok [18] :=
  (c4_composition dblOp trpOp [3] [9] [18] [0] rfl rfl rfl).1

/-- C5: the double adjoint behaves exactly as the wrapped linear operator:
same unchecked forward and adjoint primitives (value and heap semantics),
same domain and range, and the same checked entry points. -/
theorem c5_double_adjoint (A : Operator) (hlin : Operator.isLinear A = true)
    (x out : List Int) (rhs o : Nat) (h : Heap) (σ : Nat) :
    applyImplVal (.adjoint (.adjoint A)) x out = applyImplVal A x out ∧
    applyAdjointImplVal (.adjoint (.adjoint A)) x out =
      applyAdjointImplVal A x out ∧
    applyImplH (.adjoint (.adjoint A)) rhs o h σ = applyImplH A rhs o h σ ∧
    applyAdjointImplH (.adjoint (.adjoint A)) rhs o h σ =
      applyAdjointImplH A rhs o h σ ∧
    Operator.domain (.adjoint (.adjoint A)) = Operator.domain A ∧
    Operator.range (.adjoint (.adjoint A)) = Operator.range A ∧
    Operator.apply (.adjoint (.adjoint A)) rhs o h σ =
      Operator.apply A rhs o h σ ∧
    Operator.applyAdjoint (.adjoint (.adjoint A)) rhs o h σ =
      Operator.applyAdjoint A rhs o h σ := by
  refine ⟨rfl, rfl, rfl, rfl, rfl, rfl, rfl, ?_⟩
  have g1 : Operator.isLinear (.adjoint (.adjoint A)) = true := rfl
  simp only [Operator.applyAdjoint, g1, hlin, Bool.not_true, Bool.false_eq_true,
    if_false, Operator.domain, Operator.range, applyAdjointImplH, applyImplH]

/-- Witness for C5 at the concrete doubling operator: the checked adjoint
entry points of `Adjoint(Adjoint(A))` and `A` agree. -/
theorem c5_double_adjoint_witness :
    Operator.applyAdjoint (.adjoint (.adjoint dblOp)) 0 1 exHeap 2 =
      Operator.applyAdjoint dblOp 0 1 exHeap 2 :=
  (c5_double_adjoint dblOp rfl [] [] 0 1 exHeap 2).2.2.2.2.2.2.2

/-- C6: the adjoint of a linear composition reverses the order: it first
evaluates `left`'s adjoint of `y` into a temporary allocated from
`left.domain`, then `right`'s adjoint of that temporary into `out`; through
the checked entry point the output buffer ends up holding exactly
`R^T(L^T(y))`. -/
theorem c6_lincomp_adjoint (L R : Operator) (y t z out : List Int)
    (hcompat : Operator.range R = Operator.domain L)
    (hmy : memb (Operator.range L) y = true)
    (hmt : memb (Operator.domain L) t = true)
    (hmo : memb (Operator.domain R) out = true)
    (hL : applyAdjointImplVal L y (emptyElem (Operator.domain L)) = .ok t)
    (hR : applyAdjointImplVal R t out = .ok z) :
    applyAdjointImplVal (.linearComposition L R) y out = .ok z ∧
    (Operator.wf (.linearComposition L R) = true →
      Typed (.linearComposition L R) →
      ∀ rhs o h σ, rhs < σ → o < σ → rhs ≠ o → h rhs = y → h o = out →
      ∃ h' σ', Operator.applyAdjoint (.linearComposition L R) rhs o h σ =
          .ok (h', σ') ∧ h' o = z) := by
  have c1 : memb (Operator.range R) t = true := by rw [hcompat]; exact hmt
  have hmain : applyAdjointImplVal (.linearComposition L R) y out = .ok z := by
    simp only [applyAdjointImplVal, hmy, memb_emptyElem, c1, hmo, Bool.not_true,
      Bool.false_eq_true, if_false, hL, hR]
  refine ⟨hmain, ?_⟩
  intro hwf htyp rhs o h σ h1 h2 h3 hhr hho
  obtain ⟨z', h', σ', heq, hout, hmz, hval⟩ :=
    (evalH_ok (.linearComposition L R)).2 hwf htyp rfl rhs o h σ h1 h2 h3
      (by simpa only [Operator.range, hhr] using hmy)
      (by simpa only [Operator.domain, hho] using hmo)
  rw [hhr, hho, hmain] at hval
  have hz : z' = z := (Except.ok.inj hval).symm
  have hb : (rhs == o) = false := beq_eq_false_iff_ne.mpr h3
  refine ⟨h', σ', ?_, by rw [hout, hz]⟩
  simp only [Operator.applyAdjoint, Operator.isLinear, Bool.not_true,
    Bool.false_eq_true, if_false]
  rw [if_neg, if_neg, if_neg]
  · exact heq
  · simp [hb]
  · simp only [Operator.domain, hho, hmo, Bool.not_true]
    simp
  · simp only [Operator.range, hhr, hmy, Bool.not_true]
    simp

/-- Witness for C6 at doubling and tripling: the adjoint of the composition
maps `[3]` to `3 * (2 * 3) = [18]`, through the checked entry point. -/
theorem c6_lincomp_adjoint_witness :
    ∃ h' σ', Operator.applyAdjoint (.linearComposition dblOp trpOp) 0 1 exHeap 2 =
        .ok (h', σ') ∧ h' 1 = [18] :=
  (c6_lincomp_adjoint dblOp trpOp [3] [6] [18] [0] rfl (by decide) (by decide)
      (by decide) rfl rfl).2 (by decide) ⟨typed_dblOp, typed_trpOp⟩ 0 1 exHeap 2
    (by omega) (by omega) (by omega) rfl rfl

/-- C7: on a linear operator with homogeneous leaves, left and right scalar
multiplication coincide; `LinearOperator` binds the single combinator
`LinearOperatorScalarMultiplication` to both multiplication directions; and
on the non-linear squaring operator the two products differ. -/
theorem c7_left_right_scalar_mul (A : Operator) (a : Int) (x out y : List Int)
    (hwf : Operator.wf A = true) (hlin : Operator.isLinear A = true)
    (hhom : HomLeaves A) (hA : applyImplVal A x out = .ok y) :
    applyImplVal (.leftScalarMul A a) x out =
      applyImplVal (.rightScalarMul A a) x out ∧
    Operator.mulDispatch A (.scalar a) = .ok (.linearScalarMul A a) ∧
    Operator.rmulDispatch A (.scalar a) = .ok (.linearScalarMul A a) ∧
    applyImplVal (.leftScalarMul sqOp 2) [3] [0] ≠
      applyImplVal (.rightScalarMul sqOp 2) [3] [0] := by
  refine ⟨?_, ?_, ?_, ?_⟩
  · have hs := (hom_val A).1 hwf hlin hhom a x out y hA
    simp only [applyImplVal, hA, hs]
  · simp [Operator.mulDispatch, hlin]
  · simp [Operator.rmulDispatch, Operator.mulDispatch, hlin]
  · intro hc
    have h18 : applyImplVal (.leftScalarMul sqOp 2) [3] [0] = .ok [18] := rfl
    have h36 : applyImplVal (.rightScalarMul sqOp 2) [3] [0] = .ok [36] := rfl
    rw [h18, h36] at hc
    exact absurd (Except.ok.inj hc) (by decide)

/-- Witness for C7 at the doubling operator and scalar 5. -/
theorem c7_left_right_scalar_mul_witness :
    applyImplVal (.leftScalarMul dblOp 5) [3] [0] =
      applyImplVal (.rightScalarMul dblOp 5) [3] [0] :=
  (c7_left_right_scalar_mul dblOp 5 [3] [0] [6] rfl rfl hom_dblOp rfl).1

/-- C8: the adjoint primitive of a `SelfAdjointOperator` delegates
unconditionally to its forward primitive (value and heap semantics), and for
valid buffers the checked `applyAdjoint` call gives the same result as the
checked `apply` call. -/
theorem c8_self_adjoint_delegates (L : Leaf) (x out : List Int)
    (rhs o : Nat) (h : Heap) (σ : Nat) :
    applyAdjointImplVal (.selfAdjointLeaf L) x out =
      applyImplVal (.selfAdjointLeaf L) x out ∧
    applyAdjointImplH (.selfAdjointLeaf L) rhs o h σ =
      applyImplH (.selfAdjointLeaf L) rhs o h σ ∧
    (memb L.dom (h rhs) = true → memb L.rng (h rhs) = true →
      memb L.dom (h o) = true → memb L.rng (h o) = true →
      Operator.applyAdjoint (.selfAdjointLeaf L) rhs o h σ =
        Operator.apply (.selfAdjointLeaf L) rhs o h σ) := by
  refine ⟨rfl, rfl, ?_⟩
  intro h1 h2 h3 h4
  have g1 : Operator.isLinear (.selfAdjointLeaf L) = true := rfl
  simp only [Operator.applyAdjoint, Operator.apply, g1, Operator.domain,
    Operator.range, h1, h2, h3, h4, Bool.not_true, Bool.false_eq_true, if_false,
    applyAdjointImplH, applyImplH]

/-- Witness for C8 at the concrete self-adjoint doubling operator. -/
theorem c8_self_adjoint_delegates_witness :
    Operator.applyAdjoint sadOp 0 1 exHeap 2 = Operator.apply sadOp 0 1 exHeap 2 :=
  (c8_self_adjoint_delegates sadLeaf [] [] 0 1 exHeap 2).2.2 (by decide)
    (by decide) (by decide) (by decide)

/-- C9: every successful checked `apply` call leaves the input buffer
unmodified, for every operator variant (in particular for
`OperatorRightScalarMultiplication`, which scales a copy of `rhs`, never
`rhs` itself). -/
theorem c9_apply_leaves_rhs_unmodified (op : Operator) (rhs out : Nat)
    (h : Heap) (σ : Nat) (h' : Heap) (σ' : Nat) (hr : rhs < σ) (ho : out < σ)
    (hsucc : Operator.apply op rhs out h σ = .ok (h', σ')) :
    h' rhs = h rhs := by
  simp only [Operator.apply] at hsucc
  split at hsucc
  · exact absurd hsucc (by simp)
  · split at hsucc
    · exact absurd hsucc (by simp)
    · split at hsucc
      · exact absurd hsucc (by simp)
      · rename_i hbne
        obtain ⟨_, hfr⟩ := (frame_both op).1 _ _ _ _ _ _ hsucc
        refine hfr rhs hr ?_
        simpa using hbne

/-- Witness for C9: a successful right-scalar-multiplication call leaves the
input cell untouched. -/
theorem c9_apply_leaves_rhs_unmodified_witness :
    ∃ p : Heap × Nat,
      Operator.apply (.rightScalarMul dblOp 3) 0 1 exHeap 2 = .ok p ∧
      p.1 0 = exHeap 0 := by
  obtain ⟨y, h', σ', heq, _, _, _⟩ :=
    (evalH_ok (.rightScalarMul dblOp 3)).1 rfl typed_dblOp 0 1 exHeap 2
      (by omega) (by omega) (by omega) (by decide) (by decide)
  have hd : memb (Operator.domain (.rightScalarMul dblOp 3)) (exHeap 0) = true := by
    decide
  have hg : memb (Operator.range (.rightScalarMul dblOp 3)) (exHeap 1) = true := by
    decide
  have happ : Operator.apply (.rightScalarMul dblOp 3) 0 1 exHeap 2 = .ok (h', σ') := by
    simp [Operator.apply, hd, hg]
    exact heq
  exact ⟨(h', σ'), happ, c9_apply_leaves_rhs_unmodified _ 0 1 exHeap 2 h' σ'
    (by omega) (by omega) happ⟩

/-- C10: the aliasing rejection of the checked entry points tests object
identity only: two distinct buffer objects are accepted (the call delegates
to the unchecked primitive) even when they hold equal values, and a call
with literally the same buffer object on both sides fails with the aliasing
error, for every operator variant, for `apply` and `applyAdjoint` alike. -/
theorem c10_aliasing_identity_only (op : Operator) (rhs out : Nat) (h : Heap)
    (σ : Nat) :
    (rhs = out → memb (Operator.domain op) (h rhs) = true →
      memb (Operator.range op) (h out) = true →
      Operator.apply op rhs out h σ = .error .aliasingError) ∧
    (rhs ≠ out → h rhs = h out → memb (Operator.domain op) (h rhs) = true →
      memb (Operator.range op) (h out) = true →
      Operator.apply op rhs out h σ = applyImplH op rhs out h σ) ∧
    (Operator.isLinear op = true →
      (rhs = out → memb (Operator.range op) (h rhs) = true →
        memb (Operator.domain op) (h out) = true →
        Operator.applyAdjoint op rhs out h σ = .error .aliasingError) ∧
      (rhs ≠ out → h rhs = h out → memb (Operator.range op) (h rhs) = true →
        memb (Operator.domain op) (h out) = true →
        Operator.applyAdjoint op rhs out h σ = applyAdjointImplH op rhs out h σ)) := by
  refine ⟨?_, ?_, ?_⟩
  · intro he hd hr
    subst he
    simp [Operator.apply, hd, hr]
  · intro hne heqd hd hr
    have hb : (rhs == out) = false := beq_eq_false_iff_ne.mpr hne
    simp [Operator.apply, hd, hr, hb]
  · intro hlin
    constructor
    · intro he hd hr
      subst he
      simp [Operator.applyAdjoint, hlin, hd, hr]
    · intro hne heqd hd hr
      have hb : (rhs == out) = false := beq_eq_false_iff_ne.mpr hne
      simp [Operator.applyAdjoint, hlin, hd, hr, hb]

/-- Witness for C10: two distinct cells with equal data `[3]` are accepted,
while passing the same cell twice is rejected with the aliasing error. -/
theorem c10_aliasing_identity_only_witness :
    Operator.apply dblOp 0 1 eqHeap 5 = applyImplH dblOp 0 1 eqHeap 5 ∧
    Operator.apply dblOp 0 0 eqHeap 5 = .error .aliasingError :=
  ⟨(c10_aliasing_identity_only dblOp 0 1 eqHeap 5).2.1 (by omega) (by decide)
      (by decide) (by decide),
   (c10_aliasing_identity_only dblOp 0 0 eqHeap 5).1 rfl (by decide) (by decide)⟩
